import Mathlib

/-!
Shallow embedding of the `kvdb` storage engine (`src/lib.rs`).

The store keeps an append-only log file, an in-memory index from key to the
byte offset of the most recent record for that key, and a logical
write-position counter.  Records are `key_len (8 bytes LE) ++ val_len
(8 bytes LE) ++ key ++ value`.

Modelling conventions:
- a byte is a `Nat` (in well-formed data `< 256`); the file is a `List Nat`;
- `usize` arithmetic is `Nat` (lengths in scope are far below `2^64`; the
  round-trip lemma `fromLeBytes8_leBytes8` carries the explicit `< 2^64`
  bound where it matters);
- the `HashMap<Vec<u8>, usize>` is an association list with overwriting
  insert (`mapInsert` / `mapGet`);
- the `BufReader`/`BufWriter` handles are modelled by `readerLoaded` /
  `writerLoaded` flags plus a read-cursor position; an operation that would
  `unwrap()` an absent handle returns `none` (the panic);
- the reader is a `BufReader` with the default `bufCap = 8192`-byte buffer.
  `read_exact` loops over `read`, refilling the buffer as needed, so it is
  buffer-transparent: it succeeds iff the requested bytes exist before end
  of file.  A **single plain `read`**, by contrast, never refills a
  non-empty buffer: it returns at most the bytes currently buffered, and
  the code ignores the returned count.  Every plain `read` in this code
  runs right after a `seek` (which discards the buffer) and two 8-byte
  `read_exact`s (which fill the buffer with `min bufCap available` bytes
  and consume 16), so at that point the buffer holds
  `min bufCap (log.length - start) - 16` bytes: the key read returns at
  most that many bytes.  The value read in `get` returns at most the bytes
  the key read left in the buffer; only when the buffer is exactly empty
  does it hit the file again (refill or, for requests of at least `bufCap`
  bytes, a direct read), and then returns `min requested bytes-to-EOF`.
  Data beyond a short read stays as the zeroes of the caller-supplied
  zero-initialised buffer.  A single direct file read returns
  `min requested bytes-to-EOF` (regular-file semantics);
- `seek(SeekFrom::Current(n))` moves the logical position (the position
  the reader would be at with no buffer) by `n` and discards the buffer,
  so each iteration of the recovery loop and each `get` starts with an
  empty buffer at a known position — no buffer state needs to persist in
  `Kvdb` across operations.  The `value_size as i64` cast in the recovery
  seek is only faithful for sizes below `2 ^ 63`; scan-level theorems
  carry that bound (`ScanSafePair`);
- the recovery loop of `load_into_hashmap` advances its scan cursor by at
  least 16 bytes per iteration and only continues while `cursor + 16 ≤
  log.length`, so `log.length / 16 + 1` iterations always suffice; the
  loop takes that iteration count as an explicit fuel argument so that it
  is structurally recursive and computable by `decide`.
-/

/-- Byte strings: keys, values, and file contents. -/
abbrev Bytes := List Nat

/-- Default capacity of `BufReader::new` (`DEFAULT_BUF_SIZE`): 8 KiB.  A
single plain `read` on the buffered reader returns at most this many bytes
per call (less whatever of the buffer is already consumed). -/
def bufCap : Nat := 8192

/-- Little-endian encoding of `usize::to_le_bytes`: the 8 base-256 digits of `n`. -/
def leBytes8 (n : Nat) : Bytes :=
  [n % 256, n / 256 % 256, n / 65536 % 256, n / 16777216 % 256,
   n / 4294967296 % 256, n / 1099511627776 % 256,
   n / 281474976710656 % 256, n / 72057594037927936 % 256]

/-- Decoding of `usize::from_le_bytes` on an 8-byte buffer. -/
def fromLeBytes8 (l : Bytes) : Nat :=
  match l with
  | [b0, b1, b2, b3, b4, b5, b6, b7] =>
      b0 + 256 * b1 + 65536 * b2 + 16777216 * b3 + 4294967296 * b4 +
        1099511627776 * b5 + 281474976710656 * b6 + 72057594037927936 * b7
  | _ => 0

/-- Lookup in the association-list model of `HashMap<Vec<u8>, usize>`. -/
def mapGet (m : List (Bytes × Nat)) (k : Bytes) : Option Nat :=
  match m with
  | [] => none
  | (k1, v1) :: rest => if k1 = k then some v1 else mapGet rest k

/-- Overwriting insert in the association-list model of the hash map. -/
def mapInsert (m : List (Bytes × Nat)) (k : Bytes) (v : Nat) : List (Bytes × Nat) :=
  match m with
  | [] => [(k, v)]
  | (k1, v1) :: rest => if k1 = k then (k, v) :: rest else (k1, v1) :: mapInsert rest k v

/-- Error kinds of `std::io::Error` distinguished by the code. -/
inductive ErrKind where
  | NotFound
  | UnexpectedEof
  | Other
deriving DecidableEq, Repr

/-- Result of `get` / `delete`: a byte value or an error kind. -/
inductive KvResult where
  | ok (v : Bytes)
  | err (e : ErrKind)
deriving DecidableEq, Repr

/-- The `Kvdb` struct: index (`local_mem`), write-position counter
(`current_pos`), the two buffered handles (modelled as presence flags plus a
read-cursor position), and the file contents (`log`). -/
structure Kvdb where
  local_mem : List (Bytes × Nat)
  current_pos : Nat
  readerLoaded : Bool
  writerLoaded : Bool
  readerPos : Nat
  log : Bytes
deriving DecidableEq, Repr

/-- `Kvdb::new()`: empty index, zero counter, no handles, no file yet. -/
def Kvdb.new : Kvdb :=
  { local_mem := [], current_pos := 0, readerLoaded := false,
    writerLoaded := false, readerPos := 0, log := [] }

/-- Bytes returned by the single buffered key read that both the recovery
scan and `get_by_key_ref` issue right after the two 8-byte header
`read_exact`s: those header reads left `min bufCap (loglen - start) - 16`
bytes in the reader buffer (the fill stopped at the buffer capacity or at
end of file), and one plain `read` returns at most the buffered bytes. -/
def keyReadLen (loglen start key_size : Nat) : Nat :=
  min key_size (min bufCap (loglen - start) - 16)

/-- Bytes returned by the single value read of `get_by_key_ref`: at most
what the key read left in the buffer; when the buffer is exactly empty the
read goes back to the file (refill, or a direct read for requests of at
least `bufCap`) and returns `min val_size bytes-to-EOF` from the current
logical position `start + 16 + readK`. -/
def valReadLen (loglen start key_size val_size : Nat) : Nat :=
  let buffered := min bufCap (loglen - start) - 16
  let readK := min key_size buffered
  if 0 < buffered - readK then min val_size (buffered - readK)
  else min val_size (loglen - (start + 16 + readK))

/-- The recovery loop inside `load_into_hashmap`.  At scan cursor `cursor`
(with logical position counter `position`, equal to `cursor` on well-formed
logs), it `read_exact`s the 8-byte key-length field — failure with fewer
than 8 bytes available (including zero) is `UnexpectedEof`, the clean break
that returns the accumulated index and position.  It then `read_exact`s the
8-byte value-length field — failure here propagates through `?` as a fatal
error (`none`).  The key is read with a **single** plain `read` into a
zero-filled buffer of `key_size` bytes; the iteration starts with an empty
reader buffer (the previous iteration ended in a buffer-discarding seek),
the two header `read_exact`s leave `min bufCap (log.length - cursor) - 16`
bytes buffered, and the single `read` returns at most that many bytes, so
`readLen = min key_size (min bufCap (log.length - cursor) - 16)` — short of
`key_size` whenever `key_size > bufCap - 16`.  The value is then skipped by
a relative seek from the position the short read reached, and the scan
repeats. -/
def load_loop (log : Bytes) : Nat → Nat → Nat → List (Bytes × Nat) →
    Option (List (Bytes × Nat) × Nat)
  | 0, _, _, _ => none
  | fuel + 1, cursor, position, m =>
    if cursor + 8 ≤ log.length then
      if cursor + 16 ≤ log.length then
        let key_size := fromLeBytes8 ((log.drop cursor).take 8)
        let value_size := fromLeBytes8 ((log.drop (cursor + 8)).take 8)
        let readLen := keyReadLen log.length cursor key_size
        let vec_key := (log.drop (cursor + 16)).take readLen ++
          List.replicate (key_size - readLen) 0
        load_loop log fuel (cursor + 16 + readLen + value_size)
          (position + 16 + value_size + key_size) (mapInsert m vec_key position)
      else none
    else some (m, position)

/-- `Kvdb::load(path)`: opens (or creates) the file whose current contents
are `file`, installs the reader and writer handles, and runs
`load_into_hashmap` from offset 0.  On the clean break the reader seeks back
to the start and `current_pos` becomes the final scan position; a fatal scan
error aborts the whole `load` (`none`).  The fuel `file.length / 16 + 1`
strictly dominates the possible number of loop iterations. -/
def Kvdb.load (s : Kvdb) (file : Bytes) : Option Kvdb :=
  match load_loop file (file.length / 16 + 1) 0 0 s.local_mem with
  | some (m, position) =>
      some { s with log := file, readerLoaded := true, writerLoaded := true,
                    local_mem := m, current_pos := position, readerPos := 0 }
  | none => none

/-- `Kvdb::get_by_key_ref`: `unwrap()` of the reader (`none` when absent,
modelling the panic); index lookup; on a hit, seek to the stored offset
(discarding the reader buffer), `read_exact` the two length fields
(buffer-transparent), and, unless the value length is zero (tombstone),
issue one plain `read` for the key and one for the value into zero-filled
buffers, ignoring the returned counts.  After the header reads the buffer
holds `buffered = min bufCap (log.length - pos) - 16` bytes, so the single
key read returns `readK = min key_size buffered` bytes.  The single value
read returns at most what the key read left buffered
(`min val_size (buffered - readK)`); only when the buffer is exactly empty
(`buffered = readK`) does it go back to the file — a refill, or a direct
read for requests of at least `bufCap` — returning
`min val_size bytes-to-EOF` either way.  Falls through to `NotFound` when
the key is absent or the record is a tombstone. -/
def get_by_key_ref (s : Kvdb) (key : Bytes) : Option (Kvdb × KvResult) :=
  if s.readerLoaded = false then none
  else some (
    match mapGet s.local_mem key with
    | none => (s, KvResult.err ErrKind.NotFound)
    | some pos =>
      if pos + 8 ≤ s.log.length then
        if pos + 16 ≤ s.log.length then
          let key_size := fromLeBytes8 ((s.log.drop pos).take 8)
          let val_size := fromLeBytes8 ((s.log.drop (pos + 8)).take 8)
          if val_size ≠ 0 then
            let readK := keyReadLen s.log.length pos key_size
            let c3 := pos + 16 + readK
            let readV := valReadLen s.log.length pos key_size val_size
            let vec := (s.log.drop c3).take readV ++ List.replicate (val_size - readV) 0
            ({ s with readerPos := c3 + readV }, KvResult.ok vec)
          else ({ s with readerPos := pos + 16 }, KvResult.err ErrKind.NotFound)
        else ({ s with readerPos := s.log.length }, KvResult.err ErrKind.UnexpectedEof)
      else ({ s with readerPos := s.log.length }, KvResult.err ErrKind.UnexpectedEof))

/-- `Kvdb::get`: converts the key to bytes (identity here) and delegates to
`get_by_key_ref`. -/
def Kvdb.get (s : Kvdb) (key : Bytes) : Option (Kvdb × KvResult) :=
  get_by_key_ref s key

/-- Failure-injection points for the fallible steps of
`insert_by_key_ref`: the four buffered writes and the final flush. -/
inductive WriteStep where
  | wKeyLen
  | wValLen
  | wKey
  | wVal
  | wFlush
deriving DecidableEq, Repr

/-- `Kvdb::insert_by_key_ref` with an optional injected failure (`none`
injects no failure — the deterministic success path used by `insert` and
`delete`).  The writer is `unwrap()`ed (`none` models the panic), then the
writer seeks to the physical end of file and performs the four writes, each
one appending its bytes and advancing `current_pos` by the number of bytes
written; `initial_pos` is the counter value before any write.  The index is
updated **before** the final `flush`.  A step that fails returns the error
together with the state as mutated so far (`?` returns `&mut self` early). -/
def insert_by_key_ref (s : Kvdb) (key val : Bytes) (failAt : Option WriteStep) :
    Option (Kvdb × Option ErrKind) :=
  if s.writerLoaded = false then none
  else
    let initial_pos := s.current_pos
    if failAt = some WriteStep.wKeyLen then some (s, some ErrKind.Other) else
    let s1 : Kvdb := { s with log := s.log ++ leBytes8 key.length,
                              current_pos := s.current_pos + 8 }
    if failAt = some WriteStep.wValLen then some (s1, some ErrKind.Other) else
    let s2 : Kvdb := { s1 with log := s1.log ++ leBytes8 val.length,
                               current_pos := s1.current_pos + 8 }
    if failAt = some WriteStep.wKey then some (s2, some ErrKind.Other) else
    let s3 : Kvdb := { s2 with log := s2.log ++ key,
                               current_pos := s2.current_pos + key.length }
    if failAt = some WriteStep.wVal then some (s3, some ErrKind.Other) else
    let s4 : Kvdb := { s3 with log := s3.log ++ val,
                               current_pos := s3.current_pos + val.length }
    let s5 : Kvdb := { s4 with local_mem := mapInsert s4.local_mem key initial_pos }
    if failAt = some WriteStep.wFlush then some (s5, some ErrKind.Other) else
    some (s5, none)

/-- `Kvdb::insert`: converts key and value to bytes and delegates to
`insert_by_key_ref` (no injected failure on the nominal path). -/
def Kvdb.insert (s : Kvdb) (key val : Bytes) : Option (Kvdb × Option ErrKind) :=
  insert_by_key_ref s key val none

/-- `Kvdb::delete`: first the equivalent of `get(key)`; any error (NotFound
or I/O) is returned unchanged.  On a live value `v` it appends a tombstone
via `insert_by_key_ref(key, [])`, then returns `v`. -/
def Kvdb.delete (s : Kvdb) (key : Bytes) : Option (Kvdb × KvResult) :=
  match get_by_key_ref s key with
  | none => none
  | some (s1, KvResult.err e) => some (s1, KvResult.err e)
  | some (s1, KvResult.ok v) =>
    match insert_by_key_ref s1 key [] none with
    | none => none
    | some (s2, some e) => some (s2, KvResult.err e)
    | some (s2, none) => some (s2, KvResult.ok v)

/-! ## Spec-level view of a well-formed log -/

/-- On-disk encoding of one record:
`key_len ++ val_len ++ key ++ value` with 8-byte little-endian lengths. -/
def renderRecord (k v : Bytes) : Bytes :=
  leBytes8 k.length ++ (leBytes8 v.length ++ (k ++ v))

/-- A log that is a concatenation of well-formed records, one per (key,
value) pair in write order. -/
def renderLog : List (Bytes × Bytes) → Bytes
  | [] => []
  | (k, v) :: rest => renderRecord k v ++ renderLog rest

/-- Lengths representable in the 8-byte header fields. -/
def SmallPair (p : Bytes × Bytes) : Prop :=
  p.1.length < 2 ^ 64 ∧ p.2.length < 2 ^ 64

instance (p : Bytes × Bytes) : Decidable (SmallPair p) :=
  inferInstanceAs (Decidable (_ ∧ _))

/-- Records the recovery scan handles faithfully: the key (plus the 16-byte
header) fits the reader buffer, so the single buffered key read is not
short, and the value length is below `2 ^ 63`, so the `value_size as i64`
cast in the skipping seek is non-negative. -/
def ScanSafePair (p : Bytes × Bytes) : Prop :=
  16 + p.1.length ≤ bufCap ∧ p.2.length < 2 ^ 63

instance (p : Bytes × Bytes) : Decidable (ScanSafePair p) :=
  inferInstanceAs (Decidable (_ ∧ _))

theorem ScanSafePair.small (p : Bytes × Bytes) (h : ScanSafePair p) : SmallPair p := by
  obtain ⟨h1, h2⟩ := h
  have hb : bufCap = 8192 := rfl
  constructor <;> omega

theorem keyReadLen_le (L p ks : Nat) : keyReadLen L p ks ≤ ks := by
  simp only [keyReadLen]
  omega

theorem valReadLen_le (L p ks vs : Nat) : valReadLen L p ks vs ≤ vs := by
  simp only [valReadLen]
  split <;> omega

theorem valReadLen_le_avail (L p ks vs : Nat) :
    valReadLen L p ks vs ≤ L - (p + 16 + keyReadLen L p ks) := by
  simp only [valReadLen, keyReadLen]
  split <;> omega

/-- The index produced by a forward scan over the records: for each record,
in order, overwrite the entry for its key with its start offset. -/
def scanIndex : List (Bytes × Bytes) → Nat → List (Bytes × Nat) → List (Bytes × Nat)
  | [], _, m => m
  | (k, v) :: rest, pos, m =>
      scanIndex rest (pos + 16 + k.length + v.length) (mapInsert m k pos)

/-- Start offset of the most recently written record for `key`, scanning the
pairs laid out from base offset `pos` (last write wins). -/
def lastOffsetOf : List (Bytes × Bytes) → Nat → Bytes → Option Nat
  | [], _, _ => none
  | (k, v) :: rest, pos, key =>
      match lastOffsetOf rest (pos + 16 + k.length + v.length) key with
      | some o => some o
      | none => if k = key then some pos else none

/-- Value of the most recently written record for `key` (`some []` is a
tombstone). -/
def lastValue : List (Bytes × Bytes) → Bytes → Option Bytes
  | [], _ => none
  | (k, v) :: rest, key =>
      match lastValue rest key with
      | some w => some w
      | none => if k = key then some v else none

/-- Result that `get key` must produce on a store whose log holds exactly
`pairs`: the last value when it is live, `NotFound` when the key is absent
or its last record is a tombstone. -/
def getResultSpec (pairs : List (Bytes × Bytes)) (key : Bytes) : KvResult :=
  match lastValue pairs key with
  | none => KvResult.err ErrKind.NotFound
  | some v => if v = [] then KvResult.err ErrKind.NotFound else KvResult.ok v

/-- Reachable well-formed store states: handles installed, log a
concatenation of the records for `pairs`, counter at the physical end of
log, and index exactly the one a forward scan produces. -/
def GoodState (s : Kvdb) (pairs : List (Bytes × Bytes)) : Prop :=
  s.readerLoaded = true ∧ s.writerLoaded = true ∧
  s.log = renderLog pairs ∧ s.current_pos = (renderLog pairs).length ∧
  s.local_mem = scanIndex pairs 0 [] ∧ ∀ p ∈ pairs, SmallPair p

instance (s : Kvdb) (pairs : List (Bytes × Bytes)) : Decidable (GoodState s pairs) :=
  inferInstanceAs (Decidable (_ ∧ _ ∧ _ ∧ _ ∧ _ ∧ _))

/-! ## Basic lemmas: codec and map model -/

theorem leBytes8_length (n : Nat) : (leBytes8 n).length = 8 := rfl

theorem fromLeBytes8_leBytes8 (n : Nat) (h : n < 2 ^ 64) :
    fromLeBytes8 (leBytes8 n) = n := by
  simp only [leBytes8, fromLeBytes8]
  omega

theorem take8_leBytes8_append (n : Nat) (x : Bytes) :
    ((leBytes8 n ++ x).take 8) = leBytes8 n := by
  simp [leBytes8]

theorem drop8_leBytes8_append (n : Nat) (x : Bytes) :
    ((leBytes8 n ++ x).drop 8) = x := by
  simp [leBytes8]

theorem mapGet_mapInsert (m : List (Bytes × Nat)) (k k2 : Bytes) (v : Nat) :
    mapGet (mapInsert m k v) k2 = if k = k2 then some v else mapGet m k2 := by
  induction m with
  | nil => by_cases h : k = k2 <;> simp [mapGet, mapInsert, h]
  | cons p rest ih =>
    obtain ⟨k1, v1⟩ := p
    by_cases h1 : k1 = k <;> by_cases h2 : k = k2 <;>
      simp_all [mapGet, mapInsert]

theorem renderRecord_length (k v : Bytes) :
    (renderRecord k v).length = 16 + k.length + v.length := by
  simp [renderRecord, leBytes8]
  omega

theorem renderLog_append (xs ys : List (Bytes × Bytes)) :
    renderLog (xs ++ ys) = renderLog xs ++ renderLog ys := by
  induction xs with
  | nil => simp [renderLog]
  | cons p rest ih => obtain ⟨k, v⟩ := p; simp [renderLog, ih]

theorem renderLog_sixteen_le (pairs : List (Bytes × Bytes)) :
    16 * pairs.length ≤ (renderLog pairs).length := by
  induction pairs with
  | nil => simp [renderLog]
  | cons p rest ih =>
    obtain ⟨k, v⟩ := p
    simp only [renderLog, List.length_append, List.length_cons, renderRecord_length]
    omega

/-! ## Recovery scan over a well-formed log -/

theorem load_loop_step (k v rest pre : Bytes) (fuel position : Nat)
    (m : List (Bytes × Nat)) (hk : k.length < 2 ^ 64) (hv : v.length < 2 ^ 64)
    (hk8 : 16 + k.length ≤ bufCap) :
    load_loop (pre ++ (renderRecord k v ++ rest)) (fuel + 1) pre.length position m
      = load_loop (pre ++ (renderRecord k v ++ rest)) fuel
          (pre.length + 16 + k.length + v.length)
          (position + 16 + v.length + k.length) (mapInsert m k position) := by
  have hdrop : (pre ++ (renderRecord k v ++ rest)).drop pre.length
      = renderRecord k v ++ rest := List.drop_left _ _
  have hlen : (pre ++ (renderRecord k v ++ rest)).length
      = pre.length + (16 + k.length + v.length) + rest.length := by
    simp [renderRecord_length]
    omega
  have h8 : pre.length + 8 ≤ (pre ++ (renderRecord k v ++ rest)).length := by omega
  have h16 : pre.length + 16 ≤ (pre ++ (renderRecord k v ++ rest)).length := by omega
  have hdrop8 : (pre ++ (renderRecord k v ++ rest)).drop (pre.length + 8)
      = leBytes8 v.length ++ (k ++ (v ++ rest)) := by
    have : (pre ++ (renderRecord k v ++ rest)).drop (pre.length + 8)
        = ((pre ++ (renderRecord k v ++ rest)).drop pre.length).drop 8 := by
      rw [List.drop_drop]
    rw [this, hdrop]
    simp only [renderRecord, List.append_assoc]
    rw [drop8_leBytes8_append]
  have hdrop16 : (pre ++ (renderRecord k v ++ rest)).drop (pre.length + 16)
      = k ++ (v ++ rest) := by
    have : (pre ++ (renderRecord k v ++ rest)).drop (pre.length + 16)
        = ((pre ++ (renderRecord k v ++ rest)).drop (pre.length + 8)).drop 8 := by
      rw [List.drop_drop]
    rw [this, hdrop8, drop8_leBytes8_append]
  have hkey : ((pre ++ (renderRecord k v ++ rest)).drop pre.length).take 8
      = leBytes8 k.length := by
    rw [hdrop]
    simp only [renderRecord, List.append_assoc]
    rw [take8_leBytes8_append]
  have hval : ((pre ++ (renderRecord k v ++ rest)).drop (pre.length + 8)).take 8
      = leBytes8 v.length := by
    rw [hdrop8, take8_leBytes8_append]
  rw [load_loop]
  rw [if_pos h8, if_pos h16]
  have hks : fromLeBytes8 (((pre ++ (renderRecord k v ++ rest)).drop pre.length).take 8)
      = k.length := by rw [hkey, fromLeBytes8_leBytes8 _ hk]
  have hvs : fromLeBytes8 (((pre ++ (renderRecord k v ++ rest)).drop (pre.length + 8)).take 8)
      = v.length := by rw [hval, fromLeBytes8_leBytes8 _ hv]
  simp only [hks, hvs]
  have hread : keyReadLen (pre ++ (renderRecord k v ++ rest)).length pre.length k.length
      = k.length := by
    simp only [keyReadLen]
    have hb : bufCap = 8192 := rfl
    omega
  rw [hread]
  have hveckey : ((pre ++ (renderRecord k v ++ rest)).drop (pre.length + 16)).take k.length
      ++ List.replicate (k.length - k.length) 0 = k := by
    rw [hdrop16, Nat.sub_self, List.replicate_zero, List.append_nil, List.take_left]
  rw [hveckey]

theorem load_loop_renderLog (pairs : List (Bytes × Bytes)) (pre : Bytes)
    (fuel position : Nat) (m : List (Bytes × Nat))
    (hs : ∀ p ∈ pairs, ScanSafePair p) (hf : pairs.length < fuel) :
    load_loop (pre ++ renderLog pairs) fuel pre.length position m
      = some (scanIndex pairs position m, position + (renderLog pairs).length) := by
  induction pairs generalizing pre fuel position m with
  | nil =>
    obtain ⟨f, rfl⟩ : ∃ f, fuel = f + 1 := ⟨fuel - 1, by omega⟩
    rw [load_loop]
    have hlen : (pre ++ renderLog []).length = pre.length := by simp [renderLog]
    rw [if_neg (by omega)]
    simp [renderLog, scanIndex]
  | cons p rest ih =>
    obtain ⟨k, v⟩ := p
    obtain ⟨f, rfl⟩ : ∃ f, fuel = f + 1 := ⟨fuel - 1, by omega⟩
    have hsafe := hs (k, v) (List.mem_cons_self _ _)
    have hk : k.length < 2 ^ 64 := (ScanSafePair.small (k, v) hsafe).1
    have hv : v.length < 2 ^ 64 := (ScanSafePair.small (k, v) hsafe).2
    have hk8 : 16 + k.length ≤ bufCap := hsafe.1
    have hrw : renderLog ((k, v) :: rest) = renderRecord k v ++ renderLog rest := rfl
    rw [hrw, load_loop_step k v (renderLog rest) pre f position m hk hv hk8]
    have hassoc : pre ++ (renderRecord k v ++ renderLog rest)
        = (pre ++ renderRecord k v) ++ renderLog rest := by
      rw [List.append_assoc]
    have hlen2 : pre.length + 16 + k.length + v.length
        = (pre ++ renderRecord k v).length := by
      simp [renderRecord_length]
      omega
    rw [hassoc, hlen2,
      ih (pre ++ renderRecord k v) f (position + 16 + v.length + k.length)
        (mapInsert m k position)
        (fun q hq => hs q (List.mem_cons_of_mem _ hq)) (by simpa using hf)]
    have : scanIndex ((k, v) :: rest) position m
        = scanIndex rest (position + 16 + k.length + v.length) (mapInsert m k position) := rfl
    rw [this]
    have hpos : position + 16 + v.length + k.length
        = position + 16 + k.length + v.length := by omega
    rw [hpos]
    have hfin : position + 16 + k.length + v.length + (renderLog rest).length
        = position + (renderRecord k v ++ renderLog rest).length := by
      simp only [List.length_append, renderRecord_length]
      omega
    rw [hfin]

theorem load_renderLog (s : Kvdb) (pairs : List (Bytes × Bytes))
    (hs : ∀ p ∈ pairs, ScanSafePair p) :
    s.load (renderLog pairs)
      = some { s with log := renderLog pairs, readerLoaded := true,
                      writerLoaded := true,
                      local_mem := scanIndex pairs 0 s.local_mem,
                      current_pos := (renderLog pairs).length, readerPos := 0 } := by
  have hfuel : pairs.length < (renderLog pairs).length / 16 + 1 := by
    have h16 := renderLog_sixteen_le pairs
    have : pairs.length ≤ (renderLog pairs).length / 16 :=
      (Nat.le_div_iff_mul_le (by omega)).2 (by omega)
    omega
  have h0 : renderLog pairs = ([] : Bytes) ++ renderLog pairs := rfl
  unfold Kvdb.load
  rw [h0] at hfuel ⊢
  rw [show (0 : Nat) = List.length ([] : Bytes) from rfl]
  rw [load_loop_renderLog pairs [] _ _ s.local_mem hs (by simpa using hfuel)]
  simp

/-! ## Characterising the scanned index -/

theorem scanIndex_mapGet (pairs : List (Bytes × Bytes)) (base : Nat)
    (m : List (Bytes × Nat)) (k : Bytes) :
    mapGet (scanIndex pairs base m) k
      = match lastOffsetOf pairs base k with
        | some o => some o
        | none => mapGet m k := by
  induction pairs generalizing base m with
  | nil => simp [scanIndex, lastOffsetOf]
  | cons p rest ih =>
    obtain ⟨k1, v1⟩ := p
    rw [scanIndex, ih, lastOffsetOf]
    cases lastOffsetOf rest (base + 16 + k1.length + v1.length) k with
    | some o => simp
    | none =>
      simp only [mapGet_mapInsert]
      by_cases h : k1 = k <;> simp [h]

theorem scanIndex_append (xs ys : List (Bytes × Bytes)) (base : Nat)
    (m : List (Bytes × Nat)) :
    scanIndex (xs ++ ys) base m
      = scanIndex ys (base + (renderLog xs).length) (scanIndex xs base m) := by
  induction xs generalizing base m with
  | nil => simp [scanIndex, renderLog]
  | cons p rest ih =>
    obtain ⟨k, v⟩ := p
    rw [List.cons_append, scanIndex, scanIndex, ih]
    have : base + 16 + k.length + v.length + (renderLog rest).length
        = base + (renderLog ((k, v) :: rest)).length := by
      rw [show renderLog ((k, v) :: rest) = renderRecord k v ++ renderLog rest from rfl]
      simp [renderRecord_length]
      omega
    rw [this]

theorem lastOffsetOf_none_iff (pairs : List (Bytes × Bytes)) (base : Nat) (k : Bytes) :
    lastOffsetOf pairs base k = none ↔ lastValue pairs k = none := by
  induction pairs generalizing base with
  | nil => simp [lastOffsetOf, lastValue]
  | cons p rest ih =>
    obtain ⟨k1, v1⟩ := p
    rw [lastOffsetOf, lastValue]
    cases h1 : lastOffsetOf rest (base + 16 + k1.length + v1.length) k with
    | some o =>
      have : lastValue rest k ≠ none := fun hc => by
        rw [← ih (base + 16 + k1.length + v1.length)] at hc
        rw [h1] at hc
        exact Option.noConfusion hc
      cases h2 : lastValue rest k with
      | some w => simp
      | none => exact absurd h2 this
    | none =>
      have h2 : lastValue rest k = none := (ih (base + 16 + k1.length + v1.length)).1 h1
      rw [h2]
      by_cases h3 : k1 = k <;> simp [h3]

theorem lastValue_mem (pairs : List (Bytes × Bytes)) (k v : Bytes)
    (h : lastValue pairs k = some v) : (k, v) ∈ pairs := by
  induction pairs with
  | nil => simp [lastValue] at h
  | cons p rest ih =>
    obtain ⟨k1, v1⟩ := p
    rw [lastValue] at h
    cases h1 : lastValue rest k with
    | some w =>
      rw [h1] at h
      exact List.mem_cons_of_mem _ (ih (by rw [h1, ← h]))
    | none =>
      rw [h1] at h
      by_cases h2 : k1 = k
      · rw [if_pos h2] at h
        cases h
        subst h2
        exact List.mem_cons_self _ _
      · rw [if_neg h2] at h
        exact Option.noConfusion h

theorem lastValue_append_single (pairs : List (Bytes × Bytes)) (k v key : Bytes) :
    lastValue (pairs ++ [(k, v)]) key
      = if k = key then some v else lastValue pairs key := by
  induction pairs with
  | nil =>
    by_cases h : k = key <;> simp [lastValue, h]
  | cons p rest ih =>
    obtain ⟨k1, v1⟩ := p
    rw [List.cons_append, lastValue, ih, lastValue]
    by_cases h : k = key
    · simp [h]
    · simp [h]

theorem lastOffsetOf_parse (pairs : List (Bytes × Bytes)) (pre : Bytes)
    (key : Bytes) (pos : Nat)
    (h : lastOffsetOf pairs pre.length key = some pos) :
    ∃ v suffix, lastValue pairs key = some v ∧
      (pre ++ renderLog pairs).drop pos = renderRecord key v ++ suffix := by
  induction pairs generalizing pre with
  | nil => simp [lastOffsetOf] at h
  | cons p rest ih =>
    obtain ⟨k1, v1⟩ := p
    rw [lastOffsetOf] at h
    have hlen2 : pre.length + 16 + k1.length + v1.length
        = (pre ++ renderRecord k1 v1).length := by
      simp [renderRecord_length]
      omega
    cases h1 : lastOffsetOf rest (pre.length + 16 + k1.length + v1.length) key with
    | some o =>
      rw [h1] at h
      cases h
      rw [hlen2] at h1
      obtain ⟨v, suffix, hval, hdrop⟩ := ih (pre ++ renderRecord k1 v1) h1
      refine ⟨v, suffix, ?_, ?_⟩
      · rw [lastValue]
        cases h2 : lastValue rest key with
        | some w => rw [h2] at hval; exact hval
        | none => rw [h2] at hval; exact Option.noConfusion hval
      · rw [show renderLog ((k1, v1) :: rest) = renderRecord k1 v1 ++ renderLog rest from rfl,
          ← List.append_assoc]
        exact hdrop
    | none =>
      rw [h1] at h
      by_cases h2 : k1 = key
      · rw [if_pos h2] at h
        cases h
        subst h2
        have h3 := (lastOffsetOf_none_iff rest (pre.length + 16 + k1.length + v1.length) k1).1 h1
        refine ⟨v1, renderLog rest, ?_, ?_⟩
        · rw [lastValue, h3, if_pos rfl]
        · rw [show renderLog ((k1, v1) :: rest) = renderRecord k1 v1 ++ renderLog rest from rfl]
          exact List.drop_left pre _
      · rw [if_neg h2] at h
        exact Option.noConfusion h

/-! ## Behaviour of `get` on well-formed states -/

theorem GoodState_mapGet (s : Kvdb) (pairs : List (Bytes × Bytes)) (key : Bytes)
    (hg : GoodState s pairs) :
    mapGet s.local_mem key = lastOffsetOf pairs 0 key := by
  rw [hg.2.2.2.2.1, scanIndex_mapGet]
  cases lastOffsetOf pairs 0 key <;> simp [mapGet]

theorem GoodState_parse (s : Kvdb) (pairs : List (Bytes × Bytes)) (key : Bytes)
    (pos : Nat) (hg : GoodState s pairs)
    (hoff : lastOffsetOf pairs 0 key = some pos) :
    ∃ v suffix, lastValue pairs key = some v ∧
      s.log.drop pos = renderRecord key v ++ suffix ∧
      key.length < 2 ^ 64 ∧ v.length < 2 ^ 64 ∧
      s.log.length - pos = 16 + key.length + v.length + suffix.length := by
  obtain ⟨hr, hw, hlog, hcp, hmem, hs⟩ := hg
  obtain ⟨v, suffix, hval, hdrop0⟩ :=
    lastOffsetOf_parse pairs [] key pos (by simpa using hoff)
  rw [List.nil_append] at hdrop0
  have hdrop : s.log.drop pos = renderRecord key v ++ suffix := by
    rw [hlog]
    exact hdrop0
  have hsm : SmallPair (key, v) := hs _ (lastValue_mem pairs key v hval)
  refine ⟨v, suffix, hval, hdrop, hsm.1, hsm.2, ?_⟩
  have hcong := congrArg List.length hdrop
  simp only [List.length_drop, List.length_append, renderRecord_length] at hcong
  omega

theorem get_spec_dead (s : Kvdb) (pairs : List (Bytes × Bytes)) (key : Bytes)
    (hg : GoodState s pairs)
    (hdead : lastValue pairs key = none ∨ lastValue pairs key = some []) :
    ∃ rp, s.get key = some ({ s with readerPos := rp },
      KvResult.err ErrKind.NotFound) := by
  have hr : s.readerLoaded = true := hg.1
  have hmg := GoodState_mapGet s pairs key hg
  rcases hdead with hval | hval
  · have hoff : lastOffsetOf pairs 0 key = none := (lastOffsetOf_none_iff _ _ _).2 hval
    refine ⟨s.readerPos, ?_⟩
    have hset : { s with readerPos := s.readerPos } = s := rfl
    rw [hset]
    simp [Kvdb.get, get_by_key_ref, hr, hmg, hoff]
  · cases hoff : lastOffsetOf pairs 0 key with
    | none =>
      rw [(lastOffsetOf_none_iff _ _ _).1 hoff] at hval
      exact Option.noConfusion hval
    | some pos =>
      obtain ⟨v, suffix, hval2, hdrop, hk, hv, hlen⟩ :=
        GoodState_parse s pairs key pos hg hoff
      rw [hval] at hval2
      injection hval2 with hval2
      subst hval2
      have hposle : pos + 16 ≤ s.log.length := by omega
      have hks : fromLeBytes8 ((s.log.drop pos).take 8) = key.length := by
        rw [hdrop]
        simp only [renderRecord, List.append_assoc]
        rw [take8_leBytes8_append, fromLeBytes8_leBytes8 _ hk]
      have hdrop8 : s.log.drop (pos + 8)
          = leBytes8 (List.length ([] : Bytes)) ++ (key ++ ([] ++ suffix)) := by
        rw [← List.drop_drop, hdrop]
        simp only [renderRecord, List.append_assoc]
        rw [drop8_leBytes8_append]
      have hvs : fromLeBytes8 ((s.log.drop (pos + 8)).take 8) = 0 := by
        rw [hdrop8, take8_leBytes8_append]
        exact fromLeBytes8_leBytes8 0 (by norm_num)
      refine ⟨pos + 16, ?_⟩
      simp only [Kvdb.get, get_by_key_ref, hr, hmg, hoff]
      rw [if_pos (show pos + 8 ≤ s.log.length by omega), if_pos hposle]
      simp only [hvs]
      simp

theorem get_spec_live (s : Kvdb) (pairs : List (Bytes × Bytes)) (key v : Bytes)
    (hg : GoodState s pairs) (hval : lastValue pairs key = some v) (hnil : v ≠ []) :
    ∃ rp w, s.get key = some ({ s with readerPos := rp }, KvResult.ok w) ∧
      (16 + key.length + v.length ≤ bufCap → w = v) := by
  have hr : s.readerLoaded = true := hg.1
  have hmg := GoodState_mapGet s pairs key hg
  cases hoff : lastOffsetOf pairs 0 key with
  | none =>
    rw [(lastOffsetOf_none_iff _ _ _).1 hoff] at hval
    exact Option.noConfusion hval
  | some pos =>
    obtain ⟨v2, suffix, hval2, hdrop, hk, hv, hlen⟩ :=
      GoodState_parse s pairs key pos hg hoff
    rw [hval] at hval2
    injection hval2 with hval2
    subst hval2
    have hb : bufCap = 8192 := rfl
    have hposle : pos + 16 ≤ s.log.length := by omega
    have hvne : v.length ≠ 0 := fun hc => hnil (List.length_eq_zero.mp hc)
    have hks : fromLeBytes8 ((s.log.drop pos).take 8) = key.length := by
      rw [hdrop]
      simp only [renderRecord, List.append_assoc]
      rw [take8_leBytes8_append, fromLeBytes8_leBytes8 _ hk]
    have hdrop8 : s.log.drop (pos + 8) = leBytes8 v.length ++ (key ++ (v ++ suffix)) := by
      rw [← List.drop_drop, hdrop]
      simp only [renderRecord, List.append_assoc]
      rw [drop8_leBytes8_append]
    have hvs : fromLeBytes8 ((s.log.drop (pos + 8)).take 8) = v.length := by
      rw [hdrop8, take8_leBytes8_append, fromLeBytes8_leBytes8 _ hv]
    have hdrop16 : s.log.drop (pos + 16) = key ++ (v ++ suffix) := by
      rw [show pos + 16 = pos + 8 + 8 from by omega, ← List.drop_drop, hdrop8,
        drop8_leBytes8_append]
    refine ⟨pos + 16 + keyReadLen s.log.length pos key.length
        + valReadLen s.log.length pos key.length v.length,
      (s.log.drop (pos + 16 + keyReadLen s.log.length pos key.length)).take
          (valReadLen s.log.length pos key.length v.length)
        ++ List.replicate (v.length - valReadLen s.log.length pos key.length v.length) 0,
      ?_, ?_⟩
    · simp only [Kvdb.get, get_by_key_ref, hr, hmg, hoff]
      rw [if_neg (by decide : ¬(true = false)),
        if_pos (show pos + 8 ≤ s.log.length by omega), if_pos hposle]
      simp only [hks, hvs]
      rw [if_pos hvne]
    · intro hfit
      have hrk : keyReadLen s.log.length pos key.length = key.length := by
        simp only [keyReadLen]
        omega
      have hrv : valReadLen s.log.length pos key.length v.length = v.length := by
        simp only [valReadLen]
        rw [if_pos (by omega : 0 < min bufCap (s.log.length - pos) - 16
          - min key.length (min bufCap (s.log.length - pos) - 16))]
        omega
      rw [hrk, hrv, ← List.drop_drop, hdrop16, List.drop_left, Nat.sub_self,
        List.replicate_zero, List.append_nil, List.take_left]

/-! ## Behaviour of `insert` and `load` on well-formed states -/

theorem insert_spec (s : Kvdb) (key val : Bytes) (hw : s.writerLoaded = true) :
    s.insert key val
      = some ({ s with log := s.log ++ renderRecord key val,
                       current_pos := s.current_pos + (16 + key.length + val.length),
                       local_mem := mapInsert s.local_mem key s.current_pos }, none) := by
  simp only [Kvdb.insert, insert_by_key_ref, hw]
  simp [renderRecord, List.append_assoc, Kvdb.mk.injEq]
  omega

theorem load_GoodState (pairs : List (Bytes × Bytes))
    (hs : ∀ p ∈ pairs, ScanSafePair p) :
    ∃ s, Kvdb.new.load (renderLog pairs) = some s ∧ GoodState s pairs ∧
      s.local_mem = scanIndex pairs 0 [] := by
  refine ⟨_, load_renderLog Kvdb.new pairs hs, ?_, rfl⟩
  refine ⟨rfl, rfl, rfl, rfl, rfl, fun p hp => ScanSafePair.small p (hs p hp)⟩

theorem insert_GoodState (s : Kvdb) (pairs : List (Bytes × Bytes)) (key val : Bytes)
    (hg : GoodState s pairs) (hk : key.length < 2 ^ 64) (hv : val.length < 2 ^ 64) :
    s.insert key val
      = some ({ s with log := s.log ++ renderRecord key val,
                       current_pos := s.current_pos + (16 + key.length + val.length),
                       local_mem := mapInsert s.local_mem key s.current_pos }, none)
    ∧ GoodState { s with log := s.log ++ renderRecord key val,
                         current_pos := s.current_pos + (16 + key.length + val.length),
                         local_mem := mapInsert s.local_mem key s.current_pos }
        (pairs ++ [(key, val)]) := by
  obtain ⟨hr, hw, hlog, hcp, hmem, hs⟩ := hg
  refine ⟨insert_spec s key val hw, hr, hw, ?_, ?_, ?_, ?_⟩
  · rw [hlog, renderLog_append]
    simp [renderLog]
  · rw [renderLog_append, hcp]
    simp [renderLog, renderRecord_length]
  · rw [hmem, hcp, scanIndex_append]
    simp [scanIndex, renderLog]
  · intro p hp
    rcases List.mem_append.1 hp with h | h
    · exact hs p h
    · simp at h
      subst h
      exact ⟨hk, hv⟩

theorem GoodState_readerPos (s : Kvdb) (pairs : List (Bytes × Bytes)) (rp : Nat)
    (hg : GoodState s pairs) : GoodState { s with readerPos := rp } pairs := hg

theorem get_by_key_ref_shape (s : Kvdb) (key : Bytes) (p : Kvdb × KvResult)
    (h : get_by_key_ref s key = some p) : ∃ rp, p.1 = { s with readerPos := rp } := by
  rw [get_by_key_ref] at h
  split at h
  · exact Option.noConfusion h
  · injection h with h
    subst h
    cases hmg : mapGet s.local_mem key with
    | none =>
      exact ⟨s.readerPos, rfl⟩
    | some pos =>
      dsimp only
      split
      · split
        · split
          · exact ⟨_, rfl⟩
          · exact ⟨_, rfl⟩
        · exact ⟨_, rfl⟩
      · exact ⟨_, rfl⟩

theorem delete_spec (s : Kvdb) (pairs : List (Bytes × Bytes)) (key : Bytes)
    (hg : GoodState s pairs) :
    ((lastValue pairs key = none ∨ lastValue pairs key = some []) →
      ∃ rp, s.delete key = some ({ s with readerPos := rp }, KvResult.err ErrKind.NotFound))
  ∧ (∀ v, lastValue pairs key = some v → v ≠ [] →
      ∃ s1 w, s.delete key = some (s1, KvResult.ok w) ∧
        (16 + key.length + v.length ≤ bufCap → w = v) ∧
        s1.log = s.log ++ renderRecord key [] ∧
        s1.local_mem = mapInsert s.local_mem key s.current_pos ∧
        s1.current_pos = s.current_pos + (16 + key.length) ∧
        GoodState s1 (pairs ++ [(key, [])])) := by
  constructor
  · intro hdead
    obtain ⟨rp, hget⟩ := get_spec_dead s pairs key hg hdead
    rw [Kvdb.get] at hget
    refine ⟨rp, ?_⟩
    rw [Kvdb.delete, hget]
  · intro v hval hnil
    obtain ⟨rp, w, hget, hwfit⟩ := get_spec_live s pairs key v hg hval hnil
    rw [Kvdb.get] at hget
    have hsm : SmallPair (key, v) :=
      hg.2.2.2.2.2 _ (lastValue_mem pairs key v hval)
    have hins := insert_GoodState { s with readerPos := rp } pairs key []
      (GoodState_readerPos s pairs rp hg) hsm.1 (by norm_num)
    rw [Kvdb.insert] at hins
    refine ⟨Kvdb.mk (mapInsert s.local_mem key s.current_pos)
        (s.current_pos + (16 + key.length + List.length ([] : Bytes)))
        s.readerLoaded s.writerLoaded rp (s.log ++ renderRecord key []),
      w, ?_, hwfit, ?_, ?_, ?_, ?_⟩
    · rw [Kvdb.delete]
      simp only [hget, hins.1]
    · rfl
    · rfl
    · simp
    · exact hins.2

/-- Result of `get` depends only on the index, the log contents, and the
presence of the reader handle — not on the cursor or the rest of the
state: two stores agreeing on those three fields return identical `get`
results for every key. -/
theorem get_result_congr (s t : Kvdb) (key : Bytes)
    (h1 : s.local_mem = t.local_mem) (h2 : s.log = t.log)
    (h3 : s.readerLoaded = t.readerLoaded) :
    (s.get key).map Prod.snd = (t.get key).map Prod.snd := by
  rw [Kvdb.get, Kvdb.get, get_by_key_ref, get_by_key_ref, h1, h2, h3]
  by_cases hr : t.readerLoaded = false
  · rw [if_pos hr, if_pos hr]
  · rw [if_neg hr, if_neg hr]
    simp only [Option.map_some']
    cases mapGet t.local_mem key with
    | none => rfl
    | some pos =>
      dsimp only
      split
      · split
        · split
          · rfl
          · rfl
        · rfl
      · rfl

/-! ## Concrete states used by the witnesses -/

/-- Pairs written to the demo store: one record, key `[1]`, value `[2]`. -/
def demoPairs : List (Bytes × Bytes) := [([1], [2])]

/-- A well-formed store holding exactly the records of `demoPairs`. -/
def demoState : Kvdb :=
  { local_mem := [([1], 0)], current_pos := 18, readerLoaded := true,
    writerLoaded := true, readerPos := 0, log := renderLog demoPairs }

theorem demoGood : GoodState demoState demoPairs := by
  refine ⟨rfl, rfl, rfl, ?_, ?_, ?_⟩ <;> decide

/-! ## Records too large for the 8 KiB reader buffer

After the two 8-byte header reads, the buffer of a freshly seeked reader
holds at most `bufCap - 16 = 8176` bytes.  `bigKey` is one byte longer, so
the single buffered key read of the recovery scan comes up one byte short;
`bigVal` is a value long enough that the single value read of `get` is
capped by what the key read left in the buffer. -/

/-- Key of 8177 bytes: one more than the buffer holds after the header. -/
def bigKey : Bytes := List.replicate 8177 1

/-- The key as the recovery scan actually records it: 8176 bytes from the
single buffered read, and one surviving zero of the zero-initialised
buffer. -/
def bigKeyRead : Bytes := List.replicate 8176 1 ++ List.replicate 1 0

/-- A well-formed single-record log: `bigKey` with an empty value. -/
def bigLog : Bytes := renderRecord bigKey []

theorem bigKey_length : bigKey.length = 8177 := by
  rw [bigKey, List.length_replicate]

theorem bigLog_eq : bigLog = leBytes8 8177 ++ (leBytes8 0 ++ bigKey) := by
  rw [bigLog, renderRecord, bigKey_length, List.append_nil]
  rfl

theorem bigLog_length : bigLog.length = 8193 := by
  rw [bigLog, renderRecord_length, bigKey_length]
  rfl

theorem bigKeyRead_ne : bigKeyRead ≠ bigKey := by
  intro h
  have h2 := congrArg (fun l => List.count 0 l) h
  simp only [bigKeyRead, bigKey, List.count_append, List.count_replicate] at h2
  norm_num at h2

/-- Evaluation of `load` on `bigLog`: the scan's key read returns only 8176
of the 8177 key bytes, so the index records `bigKeyRead`, not `bigKey`;
the relative seek then lands at 8192 and the next header read finds a
single byte, which is treated as the clean end of log, so the load
succeeds with the counter at the position variable 8193. -/
theorem bigLog_load : Kvdb.new.load bigLog
    = some { local_mem := [(bigKeyRead, 0)], current_pos := 8193,
             readerLoaded := true, writerLoaded := true, readerPos := 0,
             log := bigLog } := by
  have h1 : fromLeBytes8 ((bigLog.drop 0).take 8) = 8177 := by
    rw [List.drop_zero, bigLog_eq, take8_leBytes8_append]
    exact fromLeBytes8_leBytes8 _ (by norm_num)
  have h2 : fromLeBytes8 ((bigLog.drop (0 + 8)).take 8) = 0 := by
    rw [show (0 + 8 : Nat) = 8 from rfl, bigLog_eq, drop8_leBytes8_append,
      take8_leBytes8_append]
    exact fromLeBytes8_leBytes8 _ (by norm_num)
  have hd16 : bigLog.drop (0 + 16) = bigKey := by
    rw [show (0 + 16 : Nat) = 8 + 8 from rfl, ← List.drop_drop, bigLog_eq,
      drop8_leBytes8_append, drop8_leBytes8_append]
  have hrl : keyReadLen bigLog.length 0 8177 = 8176 := by
    rw [bigLog_length]
    simp only [keyReadLen, bufCap]
    omega
  have hvk : (bigLog.drop (0 + 16)).take (keyReadLen bigLog.length 0 8177)
      ++ List.replicate (8177 - keyReadLen bigLog.length 0 8177) 0 = bigKeyRead := by
    rw [hrl, hd16, bigKey, List.take_replicate, bigKeyRead]
    norm_num
  rw [Kvdb.load]
  rw [show bigLog.length / 16 + 1 = 512 + 1 from by rw [bigLog_length]]
  rw [show Kvdb.new.local_mem = [] from rfl]
  rw [load_loop]
  rw [if_pos (by rw [bigLog_length]; omega), if_pos (by rw [bigLog_length]; omega)]
  simp only [h1, h2]
  rw [hvk]
  rw [show (0 + 16 + keyReadLen bigLog.length 0 8177 + 0 : Nat) = 8192 from by
      rw [hrl],
    show (0 + 16 + 0 + 8177 : Nat) = 8193 from by norm_num,
    show mapInsert [] bigKeyRead 0 = [(bigKeyRead, 0)] from rfl]
  rw [show (512 : Nat) = 511 + 1 from rfl, load_loop]
  rw [if_neg (by rw [bigLog_length]; omega)]

/-- Value of 8200 bytes: after a 1-byte key read, the buffer holds only
8175 more bytes. -/
def bigVal : Bytes := List.replicate 8200 2

/-- What `get` actually returns for that record: the single value read is
capped at the 8175 buffered bytes, and the remaining 25 bytes stay zero. -/
def bigValRead : Bytes := List.replicate 8175 2 ++ List.replicate 25 0

/-- A well-formed store holding the single record `[1] ↦ bigVal`. -/
def bigValState : Kvdb :=
  { local_mem := [([1], 0)], current_pos := 8217, readerLoaded := true,
    writerLoaded := true, readerPos := 0, log := renderRecord [1] bigVal }

theorem bigVal_length : bigVal.length = 8200 := by
  rw [bigVal, List.length_replicate]

theorem bigValLog_eq : bigValState.log = leBytes8 1 ++ (leBytes8 8200 ++ ([1] ++ bigVal)) := by
  show renderRecord [1] bigVal = _
  rw [renderRecord, bigVal_length]
  rfl

theorem bigValLog_length : bigValState.log.length = 8217 := by
  show (renderRecord [1] bigVal).length = 8217
  rw [renderRecord_length, bigVal_length]
  rfl

theorem bigValRead_ne : bigValRead ≠ bigVal := by
  intro h
  have h2 := congrArg (fun l => List.count 0 l) h
  simp only [bigValRead, bigVal, List.count_append, List.count_replicate] at h2
  norm_num at h2

/-- Evaluation of `get` on the oversized record: the key read returns its
1 byte, the value read returns only the 8175 bytes left in the buffer, and
the remaining 25 bytes of the zero-initialised value buffer survive. -/
theorem bigValState_get : get_by_key_ref bigValState [1]
    = some ({ bigValState with readerPos := 8192 }, KvResult.ok bigValRead) := by
  have h1 : fromLeBytes8 ((bigValState.log.drop 0).take 8) = 1 := by
    rw [List.drop_zero, bigValLog_eq, take8_leBytes8_append]
    exact fromLeBytes8_leBytes8 _ (by norm_num)
  have h2 : fromLeBytes8 ((bigValState.log.drop (0 + 8)).take 8) = 8200 := by
    rw [show (0 + 8 : Nat) = 8 from rfl, bigValLog_eq, drop8_leBytes8_append,
      take8_leBytes8_append]
    exact fromLeBytes8_leBytes8 _ (by norm_num)
  have hrk : keyReadLen bigValState.log.length 0 1 = 1 := by
    rw [bigValLog_length]
    simp only [keyReadLen, bufCap]
    omega
  have hrv : valReadLen bigValState.log.length 0 1 8200 = 8175 := by
    rw [bigValLog_length]
    simp only [valReadLen, bufCap]
    norm_num
  have hd17 : bigValState.log.drop (0 + 16 + 1) = bigVal := by
    rw [show (0 + 16 + 1 : Nat) = 8 + (8 + 1) from rfl, ← List.drop_drop,
      ← List.drop_drop, bigValLog_eq, drop8_leBytes8_append, drop8_leBytes8_append]
    rfl
  have hvec : (bigValState.log.drop (0 + 16 + 1)).take 8175
      ++ List.replicate (8200 - 8175) 0 = bigValRead := by
    rw [hd17, bigVal, List.take_replicate, bigValRead]
    norm_num
  rw [get_by_key_ref]
  rw [if_neg (by decide : ¬(bigValState.readerLoaded = false))]
  rw [show mapGet bigValState.local_mem [1] = some 0 from by decide]
  dsimp only
  rw [if_pos (by rw [bigValLog_length]; omega), if_pos (by rw [bigValLog_length]; omega)]
  simp only [h1, h2]
  rw [if_pos (by norm_num : (8200 : Nat) ≠ 0)]
  rw [hrk, hrv, hvec]

/-! ## Claims -/

/-- C4 (amended): the recovery scan terminates successfully exactly when the
8-byte key-length read at the scan position finds fewer than 8 bytes
available — zero bytes **or** a 1-to-7-byte partial header are both treated
as the clean end of log; a tail of 8 to 15 bytes (the second 8-byte length
read comes up short) is fatal and aborts `load` with an error.  The last two
conjuncts state the same at the `load` level for a scan that ends at
offset 0. -/
theorem C4_scan_end (log : Bytes) (fuel cursor position : Nat)
    (m : List (Bytes × Nat)) :
    (log.length < cursor + 8 →
      load_loop log (fuel + 1) cursor position m = some (m, position))
  ∧ (cursor + 8 ≤ log.length → log.length < cursor + 16 →
      load_loop log (fuel + 1) cursor position m = none)
  ∧ (log.length < 8 → (Kvdb.new.load log).isSome = true)
  ∧ (8 ≤ log.length → log.length < 16 → Kvdb.new.load log = none) := by
  refine ⟨?_, ?_, ?_, ?_⟩
  · intro h
    rw [load_loop, if_neg (by omega)]
  · intro h1 h2
    rw [load_loop, if_pos h1, if_neg (by omega)]
  · intro h
    have hf : log.length / 16 + 1 = 0 + 1 := by omega
    rw [Kvdb.load, hf, load_loop, if_neg (by omega)]
    rfl
  · intro h1 h2
    have hf : log.length / 16 + 1 = 0 + 1 := by omega
    rw [Kvdb.load, hf, load_loop, if_pos (by omega), if_neg (by omega)]

/-- C4 counterexample: the log `[0]` offers exactly 1 byte where a header
was expected — a short/partial header read — yet `load` succeeds instead of
aborting with an error as the claim requires. -/
theorem C4_counterexample :
    List.length [(0 : Nat)] = 1 ∧ (Kvdb.new.load [0]).isSome = true := by
  decide

theorem C4_witness :
    (Kvdb.new.load [0]).isSome = true ∧ Kvdb.new.load (leBytes8 3) = none :=
  ⟨(C4_scan_end [0] 0 0 0 []).2.2.1 (by decide),
   (C4_scan_end (leBytes8 3) 0 0 0 []).2.2.2 (by decide) (by decide)⟩

/-- C5 (amended): a failure of any of the four write steps of `insert`'s
append (the two length fields, the key, the value) leaves the index exactly
as it was; a failure of the final flush does **not** — the index has
already been updated to point the key at the new record's offset, because
the code inserts into `local_mem` before calling `flush`. -/
theorem C5_failed_insert (s : Kvdb) (k v : Bytes) (step : WriteStep)
    (hw : s.writerLoaded = true) :
    (step ≠ WriteStep.wFlush →
      (insert_by_key_ref s k v (some step)).map (fun p => (p.1.local_mem, p.2))
        = some (s.local_mem, some ErrKind.Other))
  ∧ (insert_by_key_ref s k v (some WriteStep.wFlush)).map
        (fun p => (mapGet p.1.local_mem k, p.2))
      = some (some s.current_pos, some ErrKind.Other) := by
  constructor
  · intro hne
    cases step <;> simp_all [insert_by_key_ref, hw]
  · simp [insert_by_key_ref, hw, mapGet_mapInsert]

/-- C5 counterexample: on the demo store, injecting a failure into the
`flush` step of `insert([9], [7])` makes the insert return an error while
the index entry for `[9]` has changed from absent to offset 18 — the claim
says the index is left unmodified when the flush fails. -/
theorem C5_counterexample :
    mapGet demoState.local_mem [9] = none ∧
    (insert_by_key_ref demoState [9] [7] (some WriteStep.wFlush)).map
        (fun p => (mapGet p.1.local_mem [9], p.2))
      = some (some 18, some ErrKind.Other) := by
  decide

theorem C5_witness :
    (insert_by_key_ref demoState [9] [7] (some WriteStep.wKeyLen)).map
        (fun p => (p.1.local_mem, p.2))
      = some (demoState.local_mem, some ErrKind.Other) :=
  (C5_failed_insert demoState [9] [7] WriteStep.wKeyLen rfl).1 (by decide)

/-- C9: `get` never modifies the index, the write-position counter, the log
contents, or the handle flags — whatever it returns, the state it hands
back differs from the input state at most in the read-cursor position. -/
theorem C9_get_frame (s s1 : Kvdb) (key : Bytes) (r : KvResult)
    (h : s.get key = some (s1, r)) :
    s1.local_mem = s.local_mem ∧ s1.current_pos = s.current_pos ∧
    s1.log = s.log ∧ s1.readerLoaded = s.readerLoaded ∧
    s1.writerLoaded = s.writerLoaded := by
  obtain ⟨rp, hp⟩ := get_by_key_ref_shape s key (s1, r) h
  rw [show ((s1, r).1 : Kvdb) = s1 from rfl] at hp
  subst hp
  exact ⟨rfl, rfl, rfl, rfl, rfl⟩

theorem C9_witness :
    demoState.get [9] = some (demoState, KvResult.err ErrKind.NotFound) ∧
    (demoState.local_mem = demoState.local_mem ∧
     demoState.current_pos = demoState.current_pos ∧
     demoState.log = demoState.log ∧
     demoState.readerLoaded = demoState.readerLoaded ∧
     demoState.writerLoaded = demoState.writerLoaded) :=
  ⟨by decide,
   C9_get_frame demoState demoState [9] (KvResult.err ErrKind.NotFound) (by decide)⟩

set_option maxRecDepth 10000 in
/-- C1 counterexample: the 1-byte file `[0]` loads successfully (so the
resulting state is "reached after a successful load"), and `insert([1],
[2])` then succeeds, but the following `get([1])` succeeds with 256 zero
bytes instead of `[2]`: the stray byte shifts the offset the index records
away from where the record physically landed. -/
theorem C1_counterexample :
    (Kvdb.new.load [0]).isSome = true ∧
    ((Kvdb.new.load [0]).bind (fun s => (s.insert [1] [2]).bind
        (fun p => (p.1.get [1]).map Prod.snd)))
      = some (KvResult.ok (List.replicate 256 0)) ∧
    KvResult.ok (List.replicate 256 0) ≠ KvResult.ok [2] := by
  refine ⟨by decide, by decide, by decide⟩

/-- C1 (amended): in any well-formed store state — reached by a successful
`load` of a log that is a concatenation of well-formed records, followed by
any successful operations — `insert(k, v)` with non-empty `v`, for a record
that fits the 8 KiB reader buffer (`16 + len(k) + len(v) ≤ 8192`), followed
by `get(k)` succeeds and returns exactly `v`. -/
theorem C1_insert_then_get (s : Kvdb) (pairs : List (Bytes × Bytes)) (k v : Bytes)
    (hg : GoodState s pairs) (hfit : 16 + k.length + v.length ≤ bufCap)
    (hne : v ≠ []) :
    (s.insert k v).bind (fun p => (p.1.get k).map Prod.snd)
      = some (KvResult.ok v) := by
  have hb : bufCap = 8192 := rfl
  obtain ⟨hins, hgood⟩ := insert_GoodState s pairs k v hg (by omega) (by omega)
  obtain ⟨rp, w, hget, hwfit⟩ := get_spec_live _ (pairs ++ [(k, v)]) k v hgood
    (by rw [lastValue_append_single, if_pos rfl]) hne
  rw [hins, Option.some_bind, hget, hwfit hfit]
  rfl

theorem C1_witness :
    GoodState demoState demoPairs ∧
    (demoState.insert [3] [4]).bind (fun p => (p.1.get [3]).map Prod.snd)
      = some (KvResult.ok [4]) :=
  ⟨demoGood,
   C1_insert_then_get demoState demoPairs [3] [4] demoGood (by decide) (by decide)⟩

/-- C2 counterexample: `bigLog` is a single well-formed record whose key is
8177 bytes — one byte more than the 8 KiB reader buffer holds after the
16-byte header.  `load` succeeds, but the single buffered key read of the
scan returns only 8176 bytes, so the index records the truncated
zero-padded key instead of the record's key: the rebuilt index has no
entry at all for `bigKey`, whose most recent record starts at offset 0. -/
theorem C2_counterexample :
    bigLog = renderLog [(bigKey, [])]
  ∧ SmallPair (bigKey, ([] : Bytes))
  ∧ lastOffsetOf [(bigKey, [])] 0 bigKey = some 0
  ∧ (Kvdb.new.load bigLog).map (fun s => mapGet s.local_mem bigKey) = some none := by
  refine ⟨?_, ?_, ?_, ?_⟩
  · rw [renderLog, renderLog, List.append_nil, bigLog]
  · constructor
    · show bigKey.length < 2 ^ 64
      rw [bigKey_length]
      norm_num
    · show List.length ([] : Bytes) < 2 ^ 64
      norm_num
  · simp [lastOffsetOf]
  · rw [bigLog_load]
    show some (mapGet [(bigKeyRead, 0)] bigKey) = some none
    rw [show mapGet [(bigKeyRead, 0)] bigKey = none from by
      rw [mapGet, if_neg bigKeyRead_ne, mapGet]]

/-- C2 (amended): after `load` succeeds on a log that is a concatenation of
well-formed records each of whose keys fits the 8 KiB reader buffer
alongside the 16-byte header (`16 + key_len ≤ 8192`; value lengths below
`2 ^ 63` so the skipping seek's `i64` cast is faithful), the rebuilt index
maps every key to the start offset of the most recently written record for
that key (last write wins), and the reloaded store returns `get` results
identical to those of any well-formed store over the same log — reopening
reproduces identical `get` results for every key. -/
theorem C2_recovery (pairs : List (Bytes × Bytes))
    (hs : ∀ p ∈ pairs, ScanSafePair p) :
    (∀ k, (Kvdb.new.load (renderLog pairs)).map (fun s => mapGet s.local_mem k)
        = some (lastOffsetOf pairs 0 k))
  ∧ (∀ s0, GoodState s0 pairs → ∀ k,
      (Kvdb.new.load (renderLog pairs)).map (fun s => (s.get k).map Prod.snd)
        = some ((s0.get k).map Prod.snd)) := by
  obtain ⟨s, hload, hgood, hmem⟩ := load_GoodState pairs hs
  constructor
  · intro k
    rw [hload]
    show some (mapGet s.local_mem k) = some (lastOffsetOf pairs 0 k)
    rw [GoodState_mapGet s pairs k hgood]
  · intro s0 hg0 k
    rw [hload]
    show some ((s.get k).map Prod.snd) = some ((s0.get k).map Prod.snd)
    rw [get_result_congr s s0 k (by rw [hmem, hg0.2.2.2.2.1])
      (by rw [hgood.2.2.1, hg0.2.2.1]) (by rw [hgood.1, hg0.1])]

theorem C2_witness :
    ((Kvdb.new.load (renderLog demoPairs)).map (fun s => mapGet s.local_mem [1])
        = some (lastOffsetOf demoPairs 0 [1]))
  ∧ ((Kvdb.new.load (renderLog demoPairs)).map (fun s => (s.get [1]).map Prod.snd)
        = some ((demoState.get [1]).map Prod.snd)) :=
  ⟨(C2_recovery demoPairs (by decide)).1 [1],
   (C2_recovery demoPairs (by decide)).2 demoState demoGood [1]⟩

/-- C6 counterexample: `load` of the 1-byte file `[0]` succeeds with the
write-position counter at 0 while the log's physical length is 1 — the
counter does not equal the physical length after this successful load. -/
theorem C6_counterexample :
    (Kvdb.new.load [0]).map (fun s => (s.current_pos, s.log.length))
      = some (0, 1) ∧ (0 : Nat) ≠ 1 := by
  refine ⟨by decide, by decide⟩

/-- C6 (amended): after a successful `load` of a log that is a concatenation
of well-formed records whose keys each fit the 8 KiB reader buffer
(`16 + key_len ≤ 8192`, value lengths below `2 ^ 63`), the write-position
counter equals the log's physical length; and unconditionally, every
successful insert advances the counter and the physical length by exactly
`16 + len(k) + len(v)` and sets the index entry for `k` to the counter value
before the append (so counter = physical length is preserved by every
successful append). -/
theorem C6_counter (pairs : List (Bytes × Bytes)) (hs : ∀ p ∈ pairs, ScanSafePair p) :
    ((Kvdb.new.load (renderLog pairs)).map (fun s => (s.current_pos, s.log.length))
        = some ((renderLog pairs).length, (renderLog pairs).length))
  ∧ (∀ (s : Kvdb) (k v : Bytes), s.writerLoaded = true →
      (s.insert k v).map
          (fun p => (p.1.current_pos, mapGet p.1.local_mem k, p.1.log.length))
        = some (s.current_pos + (16 + k.length + v.length), some s.current_pos,
            s.log.length + (16 + k.length + v.length))) := by
  constructor
  · rw [load_renderLog Kvdb.new pairs hs]
    simp
  · intro s k v hw
    rw [insert_spec s k v hw]
    simp [mapGet_mapInsert, renderRecord_length]

theorem C6_witness :
    ((Kvdb.new.load (renderLog demoPairs)).map
        (fun s => (s.current_pos, s.log.length))
      = some ((renderLog demoPairs).length, (renderLog demoPairs).length))
  ∧ ((demoState.insert [3] [4]).map
        (fun p => (p.1.current_pos, mapGet p.1.local_mem [3], p.1.log.length))
      = some (demoState.current_pos + (16 + 1 + 1), some demoState.current_pos,
          demoState.log.length + (16 + 1 + 1))) :=
  ⟨(C6_counter demoPairs (by decide)).1,
   (C6_counter demoPairs (by decide)).2 demoState [3] [4] rfl⟩

/-- C3 counterexample: on a well-formed store holding the single live
record `[1] ↦ bigVal` (an 8200-byte value), `delete([1])` succeeds and
appends its tombstone, but the "previous value" it returns is not `bigVal`:
the internal `get`'s single value read is capped at the 8175 bytes the key
read left in the reader buffer, so the returned value is `bigValRead` —
8175 real bytes followed by 25 zeroes. -/
theorem C3_counterexample :
    GoodState bigValState [([1], bigVal)]
  ∧ lastValue [([1], bigVal)] [1] = some bigVal
  ∧ (bigValState.delete [1]).map Prod.snd = some (KvResult.ok bigValRead)
  ∧ bigValRead ≠ bigVal := by
  refine ⟨⟨rfl, rfl, ?_, ?_, rfl, ?_⟩, ?_, ?_, bigValRead_ne⟩
  · show bigValState.log = renderLog [([1], bigVal)]
    rw [renderLog, renderLog, List.append_nil]
    rfl
  · show (8217 : Nat) = (renderLog [([1], bigVal)]).length
    rw [renderLog, renderLog, List.append_nil, renderRecord_length, bigVal_length]
    rfl
  · intro p hp
    simp only [List.mem_singleton] at hp
    subst hp
    constructor
    · show List.length [1] < 2 ^ 64
      norm_num
    · show bigVal.length < 2 ^ 64
      rw [bigVal_length]
      norm_num
  · simp [lastValue]
  · rw [Kvdb.delete, bigValState_get]
    dsimp only
    rw [show insert_by_key_ref { bigValState with readerPos := 8192 } [1] [] none
        = Kvdb.insert { bigValState with readerPos := 8192 } [1] [] from rfl,
      insert_spec _ _ _ rfl]
    rfl

/-- C3 (amended): on a well-formed store, `delete(k)` fails with NotFound
when `k` is absent or its most recent record is a tombstone; when `k` is
live with value `v` and the record fits the 8 KiB reader buffer
(`16 + len(k) + len(v) ≤ 8192`), `delete(k)` appends a tombstone record for
`k` (same key, zero-length value), updates the index to the tombstone's
offset (the counter value before the append), returns `v`, and afterwards
`get(k)` and a second `delete(k)` both fail with NotFound. -/
theorem C3_delete (s : Kvdb) (pairs : List (Bytes × Bytes)) (k : Bytes)
    (hg : GoodState s pairs) :
    ((lastValue pairs k = none ∨ lastValue pairs k = some []) →
      (s.delete k).map Prod.snd = some (KvResult.err ErrKind.NotFound))
  ∧ (∀ v, lastValue pairs k = some v → v ≠ [] →
      16 + k.length + v.length ≤ bufCap →
      ∃ s1, s.delete k = some (s1, KvResult.ok v) ∧
        s1.log = s.log ++ renderRecord k [] ∧
        mapGet s1.local_mem k = some s.current_pos ∧
        (s1.get k).map Prod.snd = some (KvResult.err ErrKind.NotFound) ∧
        (s1.delete k).map Prod.snd = some (KvResult.err ErrKind.NotFound)) := by
  obtain ⟨hdead, hlive⟩ := delete_spec s pairs k hg
  constructor
  · intro hcase
    obtain ⟨rp, hdel⟩ := hdead hcase
    rw [hdel]
    rfl
  · intro v hval hnil hfit
    obtain ⟨s1, w, hdel, hwfit, hlog, hmem, hcpos, hgood1⟩ := hlive v hval hnil
    rw [hwfit hfit] at hdel
    have hlast1 : lastValue (pairs ++ [(k, [])]) k = some [] := by
      rw [lastValue_append_single, if_pos rfl]
    refine ⟨s1, hdel, hlog, ?_, ?_, ?_⟩
    · rw [hmem, mapGet_mapInsert, if_pos rfl]
    · obtain ⟨rp, hget⟩ := get_spec_dead s1 (pairs ++ [(k, [])]) k hgood1
        (Or.inr hlast1)
      rw [hget]
      rfl
    · obtain ⟨rp, hdel2⟩ := (delete_spec s1 (pairs ++ [(k, [])]) k hgood1).1
        (Or.inr hlast1)
      rw [hdel2]
      rfl

theorem C3_witness :
    ((demoState.delete [9]).map Prod.snd = some (KvResult.err ErrKind.NotFound))
  ∧ ((demoState.delete [1]).map Prod.snd = some (KvResult.ok [2])) := by
  refine ⟨(C3_delete demoState demoPairs [9] demoGood).1 (Or.inl (by decide)), ?_⟩
  obtain ⟨s1, hdel, -⟩ :=
    (C3_delete demoState demoPairs [1] demoGood).2 [2] (by decide) (by decide)
      (by decide)
  rw [hdel]
  rfl

theorem get_ok_ne_nil (s s1 : Kvdb) (key w : Bytes)
    (h : s.get key = some (s1, KvResult.ok w)) : w ≠ [] := by
  rw [Kvdb.get, get_by_key_ref] at h
  split at h
  · exact Option.noConfusion h
  · injection h with h
    cases hmg : mapGet s.local_mem key with
    | none =>
      rw [hmg] at h
      simp [Prod.mk.injEq] at h
    | some pos =>
      rw [hmg] at h
      dsimp only at h
      split at h
      · split at h
        · split at h
          · rename_i h8 h16 hvne
            have h2 := congrArg Prod.snd h
            dsimp at h2
            injection h2 with h2
            intro hc
            rw [← h2] at hc
            have hlen := congrArg List.length hc
            simp only [List.length_append, List.length_take, List.length_drop,
              List.length_replicate, List.length_nil] at hlen
            have hle1 := valReadLen_le s.log.length pos
              (fromLeBytes8 ((s.log.drop pos).take 8))
              (fromLeBytes8 ((s.log.drop (pos + 8)).take 8))
            have hle2 := valReadLen_le_avail s.log.length pos
              (fromLeBytes8 ((s.log.drop pos).take 8))
              (fromLeBytes8 ((s.log.drop (pos + 8)).take 8))
            omega
          · simp [Prod.mk.injEq] at h
        · simp [Prod.mk.injEq] at h
      · simp [Prod.mk.injEq] at h

/-- C7: on a well-formed store, inserting a zero-length value for `k` makes
the following `get(k)` fail with NotFound; when `k` is live, `delete(k)`
leaves exactly the same log and index as `insert(k, [])` does (the two are
observably equivalent); and — in any state whatsoever — `get` can never
succeed with an empty value. -/
theorem C7_empty_value (s : Kvdb) (pairs : List (Bytes × Bytes)) (k : Bytes)
    (hg : GoodState s pairs) (hk : k.length < 2 ^ 64) :
    ((s.insert k []).bind (fun p => (p.1.get k).map Prod.snd)
        = some (KvResult.err ErrKind.NotFound))
  ∧ (∀ v, lastValue pairs k = some v → v ≠ [] →
      (s.delete k).map (fun p => (p.1.log, p.1.local_mem))
        = (s.insert k []).map (fun p => (p.1.log, p.1.local_mem)))
  ∧ (∀ (s0 s1 : Kvdb) (w : Bytes),
      s0.get k = some (s1, KvResult.ok w) → w ≠ []) := by
  obtain ⟨hins, hgood⟩ := insert_GoodState s pairs k [] hg hk (by norm_num)
  refine ⟨?_, ?_, fun s0 s1 w h => get_ok_ne_nil s0 s1 k w h⟩
  · have hlast : lastValue (pairs ++ [(k, [])]) k = some [] := by
      rw [lastValue_append_single, if_pos rfl]
    obtain ⟨rp, hget⟩ := get_spec_dead _ (pairs ++ [(k, [])]) k hgood (Or.inr hlast)
    rw [hins, Option.some_bind, hget]
    rfl
  · intro v hval hnil
    obtain ⟨s1, w, hdel, hwfit, hlog, hmem, -⟩ :=
      (delete_spec s pairs k hg).2 v hval hnil
    rw [hdel, hins]
    simp only [Option.map_some']
    rw [hlog, hmem]

theorem C7_witness :
    GoodState demoState demoPairs ∧
    ((demoState.insert [1] []).bind (fun p => (p.1.get [1]).map Prod.snd)
      = some (KvResult.err ErrKind.NotFound)) ∧
    ((demoState.delete [1]).map (fun p => (p.1.log, p.1.local_mem))
      = (demoState.insert [1] []).map (fun p => (p.1.log, p.1.local_mem))) := by
  have h := C7_empty_value demoState demoPairs [1] demoGood (by decide)
  exact ⟨demoGood, h.1, h.2.1 [2] (by decide) (by decide)⟩

/-- C8 counterexample: the scan does not read exactly `key_len` key bytes
for a record whose key exceeds what the 8 KiB reader buffer holds after the
header: loading the single-record log `bigLog` records the truncated
zero-padded `bigKeyRead` in the index instead of the record's 8177-byte
key. -/
theorem C8_counterexample :
    bigLog = renderRecord bigKey []
  ∧ (Kvdb.new.load bigLog).map (fun s => (s.local_mem, s.current_pos))
      = some ([(bigKeyRead, 0)], 8193)
  ∧ bigKeyRead ≠ bigKey := by
  refine ⟨rfl, ?_, bigKeyRead_ne⟩
  rw [bigLog_load]
  rfl

/-- C8 (amended): the record written by `insert` (and by `delete`, which
calls the same append with an empty value) is
`key_len ++ val_len ++ key ++ value` with two fixed 8-byte little-endian
length fields; its extent is `16 + key_len + val_len` bytes; both length
fields, the key and the value are recovered by positional decoding;
`insert` appends exactly this encoding to the log; and, for records whose
key fits the 8 KiB reader buffer alongside the header
(`16 + key_len ≤ 8192`), the recovery scan consumes exactly one such record
per step — two exact 8-byte length reads, a single buffered key read of
exactly `key_len` bytes, and a relative seek over the `val_len` value
bytes — advancing the cursor by `16 + key_len + val_len`. -/
theorem C8_record_encoding (k v : Bytes) (hk : k.length < 2 ^ 64)
    (hv : v.length < 2 ^ 64) :
    renderRecord k v = leBytes8 k.length ++ (leBytes8 v.length ++ (k ++ v))
  ∧ (renderRecord k v).length = 16 + k.length + v.length
  ∧ fromLeBytes8 ((renderRecord k v).take 8) = k.length
  ∧ fromLeBytes8 (((renderRecord k v).drop 8).take 8) = v.length
  ∧ ((renderRecord k v).drop 16).take k.length = k
  ∧ (renderRecord k v).drop (16 + k.length) = v
  ∧ (∀ s : Kvdb, s.writerLoaded = true →
      (s.insert k v).map (fun p => p.1.log) = some (s.log ++ renderRecord k v))
  ∧ (16 + k.length ≤ bufCap →
      ∀ (pre rest : Bytes) (fuel position : Nat) (m : List (Bytes × Nat)),
      load_loop (pre ++ (renderRecord k v ++ rest)) (fuel + 1) pre.length position m
        = load_loop (pre ++ (renderRecord k v ++ rest)) fuel
            (pre.length + 16 + k.length + v.length)
            (position + 16 + v.length + k.length) (mapInsert m k position)) := by
  have hd8 : (renderRecord k v).drop 8 = leBytes8 v.length ++ (k ++ v) := by
    rw [renderRecord, drop8_leBytes8_append]
  have hd16 : (renderRecord k v).drop 16 = k ++ v := by
    rw [show (16 : Nat) = 8 + 8 from rfl, ← List.drop_drop, hd8, drop8_leBytes8_append]
  refine ⟨rfl, renderRecord_length k v, ?_, ?_, ?_, ?_, ?_, ?_⟩
  · rw [renderRecord, take8_leBytes8_append, fromLeBytes8_leBytes8 _ hk]
  · rw [hd8, take8_leBytes8_append, fromLeBytes8_leBytes8 _ hv]
  · rw [hd16, List.take_left]
  · rw [← List.drop_drop, hd16, List.drop_left]
  · intro s hw
    rw [insert_spec s k v hw]
    rfl
  · intro hk8 pre rest fuel position m
    exact load_loop_step k v rest pre fuel position m hk hv hk8

theorem C8_witness :
    renderRecord [1] [2] = leBytes8 1 ++ (leBytes8 1 ++ ([1] ++ [2]))
  ∧ (renderRecord [1] [2]).length = 16 + 1 + 1
  ∧ fromLeBytes8 ((renderRecord [1] [2]).take 8) = 1
  ∧ fromLeBytes8 (((renderRecord [1] [2]).drop 8).take 8) = 1
  ∧ ((renderRecord [1] [2]).drop 16).take 1 = [1]
  ∧ (renderRecord [1] [2]).drop 17 = [2] := by
  obtain ⟨h1, h2, h3, h4, h5, h6, -, -⟩ :=
    C8_record_encoding [1] [2] (by decide) (by decide)
  exact ⟨h1, h2, h3, h4, h5, h6⟩

/-- C10: calling `get`, `insert`, or `delete` on a store built by `new()`
before any `load` hits the `unwrap`/`expect` of an absent handle (modelled
as `none`, the panic); once `load` has returned successfully the reader and
writer handles are present, and every subsequent `get`, `insert`, or
`delete` returns without panicking and leaves both handles present. -/
theorem C10_handles (k v f : Bytes) :
    (Kvdb.new.get k = none ∧ Kvdb.new.insert k v = none ∧ Kvdb.new.delete k = none)
  ∧ (∀ s s1 : Kvdb, s.load f = some s1 →
      s1.readerLoaded = true ∧ s1.writerLoaded = true)
  ∧ (∀ s : Kvdb, s.readerLoaded = true → s.writerLoaded = true →
      ((s.get k).isSome = true ∧ (s.insert k v).isSome = true ∧
        (s.delete k).isSome = true) ∧
      (∀ p, s.get k = some p → p.1.readerLoaded = true ∧ p.1.writerLoaded = true) ∧
      (∀ p, s.insert k v = some p →
        p.1.readerLoaded = true ∧ p.1.writerLoaded = true) ∧
      (∀ p, s.delete k = some p →
        p.1.readerLoaded = true ∧ p.1.writerLoaded = true)) := by
  refine ⟨⟨rfl, rfl, rfl⟩, ?_, ?_⟩
  · intro s s1 h
    rw [Kvdb.load] at h
    split at h
    · injection h with h
      subst h
      exact ⟨rfl, rfl⟩
    · exact Option.noConfusion h
  · intro s hr hw
    have hgs : ∃ p, get_by_key_ref s k = some p := by
      rw [get_by_key_ref, if_neg (by rw [hr]; simp)]
      exact ⟨_, rfl⟩
    obtain ⟨pg, hpg⟩ := hgs
    obtain ⟨rp, hrp⟩ := get_by_key_ref_shape s k pg hpg
    have hg1 : pg.1.readerLoaded = true := by rw [hrp]; exact hr
    have hg2 : pg.1.writerLoaded = true := by rw [hrp]; exact hw
    have hdel : ∃ q, s.delete k = some q ∧
        q.1.readerLoaded = true ∧ q.1.writerLoaded = true := by
      rw [Kvdb.delete, hpg]
      obtain ⟨p1, r⟩ := pg
      cases r with
      | err e => exact ⟨(p1, KvResult.err e), rfl, hg1, hg2⟩
      | ok w =>
        dsimp only
        rw [show insert_by_key_ref p1 k [] none = Kvdb.insert p1 k [] from rfl,
          insert_spec p1 k [] hg2]
        exact ⟨_, rfl, hg1, hg2⟩
    obtain ⟨q, hq, hq1, hq2⟩ := hdel
    refine ⟨⟨?_, ?_, ?_⟩, ?_, ?_, ?_⟩
    · rw [show Kvdb.get s k = get_by_key_ref s k from rfl, hpg]
      rfl
    · rw [insert_spec s k v hw]
      rfl
    · rw [hq]
      rfl
    · intro p hp
      rw [show Kvdb.get s k = get_by_key_ref s k from rfl, hpg] at hp
      injection hp with hp
      subst hp
      exact ⟨hg1, hg2⟩
    · intro p hp
      rw [insert_spec s k v hw] at hp
      injection hp with hp
      subst hp
      exact ⟨hr, hw⟩
    · intro p hp
      rw [hq] at hp
      injection hp with hp
      subst hp
      exact ⟨hq1, hq2⟩

theorem C10_witness :
    (Kvdb.new.get [1] = none ∧ Kvdb.new.insert [1] [2] = none ∧
      Kvdb.new.delete [1] = none)
  ∧ ((demoState.get [1]).isSome = true ∧ (demoState.insert [1] [2]).isSome = true ∧
      (demoState.delete [1]).isSome = true) :=
  ⟨(C10_handles [1] [2] []).1,
   ((C10_handles [1] [2] []).2.2 demoState rfl rfl).1⟩
